import Mathlib

/-!
Verification of the sentinelvault secret store (Rust) against its
natural-language specification, by a shallow embedding of the relevant
source functions in Lean.

Conventions of the embedding:
* Machine bytes are `Nat` values (< 256 in every real run); byte strings are
  `List Nat`.
* `chrono::DateTime<Utc>` timestamps and `chrono::Duration` values are `Int`
  (seconds); the current wall clock is threaded as an explicit `now` argument
  wherever the source calls `Utc::now()`.
* Rust `String` is Lean `String` (a list of Unicode scalar values); the UTF-8
  encoding used by `str::as_bytes` / `String::from_utf8` is embedded in full
  below.
* The ambient operating-system randomness (`OsRng`) is threaded as an explicit
  argument (a nonce, a salt, or a byte stream) into every function whose Rust
  source draws from it; functions whose source never touches `OsRng` take and
  return the stream unchanged.
* Fallible Rust functions returning `anyhow::Result` are embedded with
  explicit result types carrying the `anyhow!` message; a Rust panic is a
  distinct outcome (`panicked`), never a value.
-/

namespace SentinelVault

/-- Byte strings (`Vec<u8>` / `&[u8]`): lists of naturals, < 256 in real runs. -/
abbrev Bytes := List Nat

/-! ## UTF-8 (std `str::as_bytes` and `String::from_utf8`) -/

/-- UTF-8 encoding of one Unicode scalar value, exactly as std Rust (and every
other UTF-8 encoder) produces it: 1 to 4 bytes depending on the range. -/
def utf8EncodeCp (n : Nat) : List Nat :=
  if n < 0x80 then [n]
  else if n < 0x800 then [0xC0 + n / 64, 0x80 + n % 64]
  else if n < 0x10000 then
    [0xE0 + n / 4096, 0x80 + (n / 64) % 64, 0x80 + n % 64]
  else
    [0xF0 + n / 262144, 0x80 + (n / 4096) % 64, 0x80 + (n / 64) % 64, 0x80 + n % 64]

/-- A UTF-8 continuation byte: high bits `10`. -/
def utf8Cont (b : Nat) : Prop := 0x80 ≤ b ∧ b < 0xC0

instance (b : Nat) : Decidable (utf8Cont b) := by
  unfold utf8Cont; infer_instance

/-- Decode one scalar value from a leading byte `b` and the remaining bytes,
with the exact validity rules of std `String::from_utf8`: continuation bytes
checked, overlong forms, surrogates and values above U+10FFFF rejected.
Returns the scalar value and the bytes left over. -/
def utf8DecodeOne (b : Nat) (rest : List Nat) : Option (Nat × List Nat) :=
  if b < 0x80 then some (b, rest)
  else if b < 0xC2 then none
  else if b < 0xE0 then
    match rest with
    | b1 :: r =>
      if utf8Cont b1 then some ((b - 0xC0) * 64 + (b1 - 0x80), r) else none
    | [] => none
  else if b < 0xF0 then
    match rest with
    | b1 :: b2 :: r =>
      let n := (b - 0xE0) * 4096 + (b1 - 0x80) * 64 + (b2 - 0x80)
      if utf8Cont b1 ∧ utf8Cont b2 ∧ 0x800 ≤ n ∧ (n < 0xD800 ∨ 0xE000 ≤ n) then
        some (n, r)
      else none
    | _ => none
  else if b < 0xF5 then
    match rest with
    | b1 :: b2 :: b3 :: r =>
      let n := (b - 0xF0) * 262144 + (b1 - 0x80) * 4096 + (b2 - 0x80) * 64 + (b3 - 0x80)
      if utf8Cont b1 ∧ utf8Cont b2 ∧ utf8Cont b3 ∧ 0x10000 ≤ n ∧ n < 0x110000 then
        some (n, r)
      else none
    | _ => none
  else none

/-- Decode a whole byte string to its scalar values; the fuel is an upper
bound on the number of scalar values and makes the recursion structural. -/
def utf8DecodeFuel : Nat → List Nat → Option (List Nat)
  | _, [] => some []
  | 0, _ :: _ => none
  | fuel + 1, b :: rest =>
    match utf8DecodeOne b rest with
    | none => none
    | some (n, rem) => (utf8DecodeFuel fuel rem).map (fun l => n :: l)

/-- `String::from_utf8` at the level of scalar values: all-or-nothing decode. -/
def utf8DecodeList (l : List Nat) : Option (List Nat) :=
  utf8DecodeFuel l.length l

/-- `str::as_bytes`: the UTF-8 bytes of a string. -/
def strToBytes (s : String) : Bytes :=
  (s.data.map Char.toNat).flatMap utf8EncodeCp

/-- `String::from_utf8`: the string of a byte sequence, absent when the bytes
are not valid UTF-8. -/
def bytesToStr (b : Bytes) : Option String :=
  (utf8DecodeList b).map (fun l => String.mk (l.map Char.ofNat))

/-! ## Crypto engine (src/crypto.rs)

AES-256-GCM comes from the external `aes_gcm` crate; it is embedded here as an
idealized AEAD with the interface contract the repository relies on: a
keystream cipher over the plaintext bytes plus a 16-byte integrity tag that is
a deterministic function of (key, nonce, ciphertext body).  The AES
permutation itself and GCM's unforgeability (a cryptographic assumption) are
idealized: `gcmKsByte` and `gcmTag` are concrete stand-in functions.  The GCM
message-length bound (about 2^36 bytes) is not modelled.  Everything around
the AEAD call — nonce handling, error mapping, the UTF-8 re-decoding — is
translated from src/crypto.rs. -/

/-- Stand-in for the AES-CTR keystream byte at position `i` under (key, nonce). -/
def gcmKsByte (key nonce : Bytes) (i : Nat) : Nat :=
  ((key ++ nonce).foldl (fun a b => (a * 257 + b + 11) % 65521) 1 + i * 97) % 256

/-- XOR the bytes from position `i` on with the keystream (CTR encryption and
decryption are the same operation). -/
def gcmMask (key nonce : Bytes) (i : Nat) : Bytes → Bytes
  | [] => []
  | b :: rest => (b ^^^ gcmKsByte key nonce i) :: gcmMask key nonce (i + 1) rest

/-- Stand-in for the 16-byte GCM authentication tag over (key, nonce, body). -/
def gcmTag (key nonce body : Bytes) : Bytes :=
  List.replicate 16 ((key ++ nonce ++ body).foldl (fun a b => (a * 131 + b + 7) % 251) 5)

/-- `Aes256Gcm::encrypt`: ciphertext is the masked plaintext followed by the tag. -/
def aes256gcmEncrypt (key nonce pt : Bytes) : Bytes :=
  gcmMask key nonce 0 pt ++ gcmTag key nonce (gcmMask key nonce 0 pt)

/-- `Aes256Gcm::decrypt`: split off the 16-byte tag (failing when the input is
shorter than a tag), recompute it over the body, and unmask only on a match. -/
def aes256gcmDecrypt (key nonce ct : Bytes) : Option Bytes :=
  if ct.length < 16 then none
  else
    let body := ct.take (ct.length - 16)
    let tag := ct.drop (ct.length - 16)
    if tag = gcmTag key nonce body then some (gcmMask key nonce 0 body) else none

/-- `EncryptedData` of src/crypto.rs: ciphertext plus nonce. -/
structure EncryptedData where
  ciphertext : Bytes
  nonce : Bytes
deriving DecidableEq

/-- Every outcome of `CryptoEngine::decrypt`: the two `anyhow` failures it
returns, plus the panic a wrong-length nonce causes in `Nonce::from_slice`. -/
inductive DecryptResult where
  | ok (plaintext : String)
  | decryptionError
  | encodingError
  | panicked
deriving DecidableEq

/-- `CryptoEngine::encrypt` (src/crypto.rs lines 43-53).  The fresh random
nonce drawn from `OsRng` is the explicit `nonce` argument (12 bytes in every
real run). -/
def CryptoEngine.encrypt (key nonce : Bytes) (plaintext : String) : EncryptedData :=
  { ciphertext := aes256gcmEncrypt key nonce (strToBytes plaintext), nonce := nonce }

/-- `CryptoEngine::decrypt` (src/crypto.rs lines 55-63).  The source first
builds `Nonce::from_slice(&encrypted.nonce)`: `GenericArray::from_slice`
asserts the slice length equals 12 and panics otherwise, before any
authenticated decryption happens.  On tag failure the aead error is mapped to
the decryption failure; decrypted bytes that are not valid UTF-8 are the
encoding failure. -/
def CryptoEngine.decrypt (key : Bytes) (encrypted : EncryptedData) : DecryptResult :=
  if encrypted.nonce.length ≠ 12 then .panicked
  else
    match aes256gcmDecrypt key encrypted.nonce encrypted.ciphertext with
    | none => .decryptionError
    | some plaintext =>
      match bytesToStr plaintext with
      | none => .encodingError
      | some s => .ok s

/-- A byte stream standing for the ambient `OsRng`. -/
abbrev RngState := List Nat

/-- Result of a fallible operation, carrying the `anyhow!` message on failure. -/
inductive VResult (α : Type) where
  | ok (a : α)
  | error (msg : String)
deriving DecidableEq

/-- Stand-in for the Argon2id hash (argon2 crate, `Argon2::default()`): a
concrete pure function of the password bytes and the salt string, 32 bytes of
output.  Determinism — the property the repository relies on — is inherited by
everything built on it; the real hash's preimage resistance is a cryptographic
assumption outside the model. -/
def argon2Hash (password : Bytes) (salt : String) : Bytes :=
  (List.range 32).map (fun i =>
    ((password.foldl (fun a b => (a * 131 + b + 17) % 65521) 7) * 31 +
      (strToBytes salt).foldl (fun a b => (a * 137 + b + 29) % 65521) 3 + i * 101) % 256)

/-- The base64 alphabet used by `SaltString::encode_b64` (standard, unpadded). -/
def b64Char (n : Nat) : Char :=
  "ABCDEFGHIJKLMNOPQRSTUVWXYZabcdefghijklmnopqrstuvwxyz0123456789+/".data.getD n 'A'

/-- Standard unpadded base64 of a byte string, three bytes at a time. -/
def b64Chunks : Bytes → List Char
  | b1 :: b2 :: b3 :: rest =>
    b64Char (b1 / 4) :: b64Char ((b1 % 4) * 16 + b2 / 16) ::
      b64Char ((b2 % 16) * 4 + b3 / 64) :: b64Char (b3 % 64) :: b64Chunks rest
  | [b1, b2] => [b64Char (b1 / 4), b64Char ((b1 % 4) * 16 + b2 / 16), b64Char ((b2 % 16) * 4)]
  | [b1] => [b64Char (b1 / 4), b64Char ((b1 % 4) * 16)]
  | [] => []

/-- `SaltString::encode_b64`: fails when the encoded salt would exceed the 64
character salt buffer (raw salt longer than 48 bytes), else the base64 text. -/
def saltEncodeB64 (salt : Bytes) : VResult String :=
  if salt.length > 48 then .error "Failed to encode salt"
  else .ok (String.mk (b64Chunks salt))

/-- `derive_key_from_password` (src/crypto.rs lines 66-86): hash the password
with Argon2 default parameters over the base64-encoded salt, fail if the hash
is shorter than 32 bytes, else take its first 32 bytes as the key.  The
source never touches `OsRng`, so the embedding takes the ambient stream and
returns it untouched, its result independent of it. -/
def derive_key_from_password (password : String) (salt : Bytes) (rng : RngState) :
    VResult Bytes × RngState :=
  (match saltEncodeB64 salt with
   | .error e => .error e
   | .ok saltStr =>
     let hashBytes := argon2Hash (strToBytes password) saltStr
     if hashBytes.length < 32 then .error "Hash too short for key derivation"
     else .ok (hashBytes.take 32),
   rng)

/-! ## Leases and duration parsing (src/lease.rs) -/

/-- `Lease` of src/lease.rs (field order as declared there). -/
structure Lease where
  expires_at : Int
  created_at : Int
deriving DecidableEq

/-- `Lease::is_expired`: `Utc::now() > self.expires_at`, with the clock as an
explicit argument. -/
def Lease.is_expired (l : Lease) (now : Int) : Bool :=
  decide (l.expires_at < now)

/-- `LeaseManager`: the `HashMap<String, Lease>` as an association list.  A
`HashMap` is a key-value map with no meaningful order; the list operations
below treat it purely as a map. -/
structure LeaseManager where
  leases : List (String × Lease)
deriving DecidableEq

/-- `HashMap::get` on an association list. -/
def alistGet {α : Type} (l : List (String × α)) (k : String) : Option α :=
  (l.find? (fun p => p.1 == k)).map (fun p => p.2)

/-- `HashMap::remove` on an association list (drops the key entirely). -/
def alistRemove {α : Type} (l : List (String × α)) (k : String) : List (String × α) :=
  l.filter (fun p => !(p.1 == k))

/-- `HashMap::insert` on an association list: the key now maps to `v` alone. -/
def alistInsert {α : Type} (l : List (String × α)) (k : String) (v : α) :
    List (String × α) :=
  (k, v) :: alistRemove l k

/-- `LeaseManager::get_lease`. -/
def LeaseManager.get_lease (m : LeaseManager) (name : String) : Option Lease :=
  alistGet m.leases name

/-- `LeaseManager::remove_lease` (the source also hands back the removed lease,
which every caller in the repository discards; the embedding keeps the new map). -/
def LeaseManager.remove_lease (m : LeaseManager) (name : String) : LeaseManager :=
  ⟨alistRemove m.leases name⟩

/-- Rust `char::is_whitespace`: the Unicode White_Space code points. -/
def rustIsWhitespace (c : Char) : Bool :=
  decide (c.toNat ∈ [0x09, 0x0A, 0x0B, 0x0C, 0x0D, 0x20, 0x85, 0xA0, 0x1680] ∨
    (0x2000 ≤ c.toNat ∧ c.toNat ≤ 0x200A) ∨
    c.toNat ∈ [0x2028, 0x2029, 0x202F, 0x205F, 0x3000])

/-- Rust `str::trim`: drop leading and trailing whitespace. -/
def rustTrim (s : String) : String :=
  String.mk (((s.data.dropWhile rustIsWhitespace).reverse.dropWhile rustIsWhitespace).reverse)

/-- Rust `char::is_alphabetic` on the code points the duration grammar can
accept.  The full Unicode Alphabetic property is wider, but a parse can only
succeed when the number part is ASCII digits (with an optional sign) and the
unit part is one of the ASCII unit words, so the accepted language — what the
claims are about — is unchanged by reading it as ASCII-alphabetic. -/
def rustIsAlphabetic (c : Char) : Bool :=
  decide (('a' ≤ c ∧ c ≤ 'z') ∨ ('A' ≤ c ∧ c ≤ 'Z'))

/-- `str::rfind(char::is_alphabetic)`: the index of the last alphabetic
character.  The source works with byte indices; a byte index of a character
boundary and the character index determine each other, so the embedding splits
at the character index. -/
def lastAlphaIdx (cs : List Char) : Option Nat :=
  match cs.reverse.findIdx? rustIsAlphabetic with
  | none => none
  | some j => some (cs.length - 1 - j)

/-- The value of a nonempty, all-ASCII-digit character list. -/
def digitsVal (cs : List Char) : Option Nat :=
  if cs ≠ [] ∧ ∀ c ∈ cs, '0' ≤ c ∧ c ≤ '9' then
    some (cs.foldl (fun a c => a * 10 + (c.toNat - 48)) 0)
  else none

/-- Rust `str::parse::<i64>`: optional sign, one or more ASCII digits, nothing
else, and the value must fit in a signed 64-bit integer. -/
def parseI64 (cs : List Char) : Option Int :=
  (match cs with
   | '+' :: rest => (digitsVal rest).map (fun n => (n : Int))
   | '-' :: rest => (digitsVal rest).map (fun n => -(n : Int))
   | _ => (digitsVal cs).map (fun n => (n : Int))).bind
    (fun v => if -9223372036854775808 ≤ v ∧ v ≤ 9223372036854775807 then some v else none)

/-- Rust `char::to_lowercase` on the ASCII range, where the unit words live;
no code point outside ASCII lowers to any of the ASCII unit letters. -/
def asciiLower (c : Char) : Char :=
  if 'A' ≤ c ∧ c ≤ 'Z' then Char.ofNat (c.toNat + 32) else c

/-- The `match` arms of `parse_duration`: seconds per unit word. -/
def unitSeconds (u : String) : Option Int :=
  if u = "s" ∨ u = "sec" ∨ u = "seconds" then some 1
  else if u = "m" ∨ u = "min" ∨ u = "minutes" then some 60
  else if u = "h" ∨ u = "hour" ∨ u = "hours" then some 3600
  else if u = "d" ∨ u = "day" ∨ u = "days" then some 86400
  else if u = "w" ∨ u = "week" ∨ u = "weeks" then some 604800
  else none

/-- Outcome of an operation that can return, fail with a message, or panic. -/
inductive OpResult (α : Type) where
  | ok (a : α)
  | error (msg : String)
  | panicked
deriving DecidableEq

/-- `parse_duration` (src/lease.rs lines 99-134): trim; reject the empty
string; split at the LAST alphabetic character (`rfind`), the number part
being everything before it and the unit part that character and everything
after it; parse the number as i64; reject non-positive values; match the
lowercased unit part against the unit words.  `chrono::Duration` stores
milliseconds in an i64, so its constructors panic when the seconds exceed
`i64::MAX / 1000` = 9223372036854775 (`Duration::seconds` directly, the other
units via `checked_mul` then `Duration::seconds`); the embedding returns the
duration as whole seconds. -/
def parse_duration (s : String) : OpResult Int :=
  let cs := (rustTrim s).data
  if cs = [] then .error "Duration cannot be empty"
  else
    match lastAlphaIdx cs with
    | none => .error "Duration must include a unit (s, m, h, d)"
    | some pos =>
      let numberPart := cs.take pos
      let unitPart := cs.drop pos
      match parseI64 numberPart with
      | none => .error ("Invalid number in duration: " ++ String.mk numberPart)
      | some n =>
        if n ≤ 0 then .error "Duration must be positive"
        else
          match unitSeconds (String.mk (unitPart.map asciiLower)) with
          | none =>
            .error ("Invalid duration unit: " ++ String.mk unitPart ++ ". Use s, m, h, d, or w")
          | some mult =>
            if n * mult > 9223372036854775 then .panicked else .ok (n * mult)

/-! ## Name and value validation (src/utils.rs) -/

/-- The explicit invalid-character list of `sanitize_secret_name`. -/
def invalidChars : List Char := ['/', '\\', ':', '*', '?', '\"', '<', '>', '|', '\x00']

/-- Rust `char::is_control`: the Unicode Cc category, U+0000..U+001F and
U+007F..U+009F. -/
def rustIsControl (c : Char) : Bool :=
  decide (c.toNat < 0x20 ∨ (0x7F ≤ c.toNat ∧ c.toNat ≤ 0x9F))

/-- A character `sanitize_secret_name` rejects. -/
def badNameChar (c : Char) : Bool :=
  invalidChars.contains c || rustIsControl c

/-- Rust `str::to_uppercase` on the ASCII range.  The reserved names are pure
ASCII and no code point outside ASCII uppercases to any of their letters, so
equality with a reserved name is unchanged by reading it as ASCII. -/
def asciiUpper (c : Char) : Char :=
  if 'a' ≤ c ∧ c ≤ 'z' then Char.ofNat (c.toNat - 32) else c

/-- `name.to_uppercase()` as used by the reserved-name check. -/
def rustUppercase (s : String) : String :=
  String.mk (s.data.map asciiUpper)

/-- The reserved names of `sanitize_secret_name`. -/
def reservedNames : List String := [".", "..", "CON", "PRN", "AUX", "NUL"]

/-- Rust `str::len`: the length in UTF-8 bytes (not characters). -/
def rustByteLen (s : String) : Nat :=
  (strToBytes s).length

/-- `sanitize_secret_name` (src/utils.rs lines 38-61): reject the empty name,
a name longer than 255 BYTES, a name with an invalid or control character, and
a reserved name compared case-insensitively; otherwise return the name. -/
def sanitize_secret_name (name : String) : VResult String :=
  if name = "" then .error "Secret name cannot be empty"
  else if rustByteLen name > 255 then .error "Secret name too long (max 255 characters)"
  else if name.data.any badNameChar then .error "Secret name contains invalid characters"
  else if reservedNames.contains (rustUppercase name) then .error "Secret name is reserved"
  else .ok name

/-- `validate_secret_value` (src/utils.rs lines 64-79): reject the empty
value, a value longer than 10,000 BYTES, and a value with an embedded null. -/
def validate_secret_value (value : String) : VResult Unit :=
  if value = "" then .error "Secret value cannot be empty"
  else if rustByteLen value > 10000 then .error "Secret value too long (max 10,000 characters)"
  else if value.data.any (fun c => c == '\x00') then
    .error "Secret value cannot contain null bytes"
  else .ok ()

/-! ## Vault (src/vault.rs)

The persisted file `vault.ron` holds `ron::to_string` of the `VaultData`
aggregate; `ron::to_string` is a deterministic function of the data, so the
file's bytes are identical exactly when the serialized `VaultData` values are
equal, and the embedding carries the file as the `VaultData` it deserializes
to.  A `World` is one vault session: the in-memory aggregate, the session key
inside the crypto engine, and the persisted file. -/

/-- `SecretEntry` of src/vault.rs. -/
structure SecretEntry where
  encrypted_value : EncryptedData
  created_at : Int
  updated_at : Int
  access_count : Nat
  last_accessed : Option Int
deriving DecidableEq

/-- `SecretEntry::new` (src/vault.rs lines 22-32): fresh statistics. -/
def SecretEntry.new (encrypted_value : EncryptedData) (now : Int) : SecretEntry :=
  { encrypted_value := encrypted_value, created_at := now, updated_at := now,
    access_count := 0, last_accessed := none }

/-- `SecretEntry::mark_accessed` (src/vault.rs lines 34-37); declared by the
source but called by no vault operation. -/
def SecretEntry.mark_accessed (e : SecretEntry) (now : Int) : SecretEntry :=
  { e with access_count := e.access_count + 1, last_accessed := some now }

/-- `VaultData` of src/vault.rs: the single unit of persistence. -/
structure VaultData where
  secrets : List (String × SecretEntry)
  lease_manager : LeaseManager
  created_at : Int
  version : String
deriving DecidableEq

/-- `Vault` of src/vault.rs: the aggregate plus the crypto engine, which holds
nothing but the immutable session key. -/
structure Vault where
  data : VaultData
  key : Bytes
deriving DecidableEq

/-- One session's full state: the in-memory vault and the persisted file. -/
structure World where
  vault : Vault
  file : VaultData
deriving DecidableEq

/-- `Vault::save` (src/vault.rs lines 128-133): rewrite the whole aggregate. -/
def Vault.save (w : World) : World :=
  { w with file := w.vault.data }

/-- `Vault::add_secret` (src/vault.rs lines 135-146): validate the name and
the value, encrypt the value (the fresh `OsRng` nonce is the explicit
argument), insert or overwrite the entry wholesale, then persist the full
aggregate.  A validation failure returns before anything is touched. -/
def Vault.add_secret (w : World) (now : Int) (nonce : Bytes) (name value : String) :
    VResult Unit × World :=
  match sanitize_secret_name name with
  | .error e => (.error e, w)
  | .ok name1 =>
    match validate_secret_value value with
    | .error e => (.error e, w)
    | .ok _ =>
      let entry := SecretEntry.new (CryptoEngine.encrypt w.vault.key nonce value) now
      let data1 := { w.vault.data with secrets := alistInsert w.vault.data.secrets name1 entry }
      (.ok (), Vault.save { w with vault := { w.vault with data := data1 } })

/-- Map a `CryptoEngine::decrypt` outcome through `get_secret`'s `?`. -/
def liftDecrypt : DecryptResult → OpResult (Option String)
  | .ok s => .ok (some s)
  | .decryptionError => .error "Decryption failed"
  | .encodingError => .error "Invalid UTF-8 in decrypted data"
  | .panicked => .panicked

/-- `Vault::get_secret` (src/vault.rs lines 148-168): validate the name; an
unknown name is `Ok(None)`; a name whose lease is expired at the query's
moment is `Ok(None)`; otherwise decrypt the stored entry.  The receiver is
`&self` and nothing is saved, so the world comes back untouched.  (The source
reaches the decrypt after the lease block whether or not a lease exists; the
embedding spells the two paths out.) -/
def Vault.get_secret (w : World) (now : Int) (name : String) :
    OpResult (Option String) × World :=
  (match sanitize_secret_name name with
   | .error e => .error e
   | .ok name1 =>
     match alistGet w.vault.data.secrets name1 with
     | none => .ok none
     | some entry =>
       match w.vault.data.lease_manager.get_lease name1 with
       | some lease =>
         if lease.is_expired now then .ok none
         else liftDecrypt (CryptoEngine.decrypt w.vault.key entry.encrypted_value)
       | none => liftDecrypt (CryptoEngine.decrypt w.vault.key entry.encrypted_value),
   w)

/-- Insert a (name, expiry) pair into a list sorted by name. -/
def insertByName (p : String × Option Int) : List (String × Option Int) →
    List (String × Option Int)
  | [] => [p]
  | q :: rest => if p.1 ≤ q.1 then p :: q :: rest else q :: insertByName p rest

/-- `Vec::sort_by(|a, b| a.0.cmp(&b.0))`: sort the pairs by name.  Rust's
sort is a stable merge sort; on these lists (one pair per distinct map key) any
sort by name produces the same list, and the embedding uses insertion sort. -/
def sortByName (l : List (String × Option Int)) : List (String × Option Int) :=
  l.foldr insertByName []

/-- `Vault::list_secrets` (src/vault.rs lines 170-189): walk the secrets map,
skip entries whose lease is expired, pair the rest with their optional expiry,
and sort by name. -/
def Vault.list_secrets (w : World) (now : Int) : List (String × Option Int) :=
  sortByName (w.vault.data.secrets.filterMap (fun p =>
    match w.vault.data.lease_manager.get_lease p.1 with
    | some lease =>
      if lease.is_expired now then none else some (p.1, some lease.expires_at)
    | none => some (p.1, none)))

/-- `Vault::remove_secret` (src/vault.rs lines 191-202): validate the name,
remove the entry from the secrets map and the lease from the lease manager
unconditionally, but save — and report `true` — only when a secret ENTRY was
present. -/
def Vault.remove_secret (w : World) (name : String) : VResult Bool × World :=
  match sanitize_secret_name name with
  | .error e => (.error e, w)
  | .ok name1 =>
    let removed := (alistGet w.vault.data.secrets name1).isSome
    let data1 := { w.vault.data with
      secrets := alistRemove w.vault.data.secrets name1,
      lease_manager := w.vault.data.lease_manager.remove_lease name1 }
    let w1 := { w with vault := { w.vault with data := data1 } }
    if removed then (.ok true, Vault.save w1) else (.ok false, w1)

/-! ## Spec-side definitions and concrete states

`claimNameOk`, `claimValueOk` and `getSecretSpec` restate, in the spec's own
terms, what the claims say the operations do (with the one correction each
needs); the theorems below compare them with the embedded source.  The
concrete worlds are the inputs of the witnesses and counterexamples. -/

/-- The name rules as the claim states them, with lengths read as the source
counts them: in UTF-8 bytes. -/
def claimNameOk (name : String) : Prop :=
  name ≠ "" ∧ rustByteLen name ≤ 255 ∧ (∀ c ∈ name.data, badNameChar c = false) ∧
    rustUppercase name ∉ reservedNames

/-- The value rules as the claim states them, with the length in UTF-8 bytes. -/
def claimValueOk (value : String) : Prop :=
  value ≠ "" ∧ rustByteLen value ≤ 10000 ∧ ∀ c ∈ value.data, c ≠ '\x00'

instance (name : String) : Decidable (claimNameOk name) := by
  unfold claimNameOk; infer_instance

instance (value : String) : Decidable (claimValueOk value) := by
  unfold claimValueOk; infer_instance

/-- Whether `name` has an expired lease at `now` (no lease counts as not
expired). -/
def leaseExpiredAt (w : World) (name : String) (now : Int) : Bool :=
  match w.vault.data.lease_manager.get_lease name with
  | some l => l.is_expired now
  | none => false

/-- The amended claim about `get_secret`, as a function: absent entry or
expired lease give `None` without error; otherwise the outcome of decrypting
the stored entry. -/
def getSecretSpec (w : World) (now : Int) (name : String) : OpResult (Option String) :=
  match alistGet w.vault.data.secrets name with
  | none => .ok none
  | some entry =>
    if leaseExpiredAt w name now then .ok none
    else liftDecrypt (CryptoEngine.decrypt w.vault.key entry.encrypted_value)

/-- A fixed 256-bit session key for the concrete states. -/
def key0 : Bytes := List.replicate 32 0

/-- A fixed 12-byte nonce standing for one draw from `OsRng`. -/
def nonce0 : Bytes := List.replicate 12 0

/-- An empty aggregate, as `VaultData::default()` builds it. -/
def vd0 : VaultData :=
  { secrets := [], lease_manager := ⟨[]⟩, created_at := 0, version := "0.1.0" }

/-- An empty, freshly persisted world. -/
def w0 : World := { vault := { data := vd0, key := key0 }, file := vd0 }

/-- A stored entry holding the encryption of "sk-123" under `key0`. -/
def entry1 : SecretEntry := SecretEntry.new (CryptoEngine.encrypt key0 nonce0 "sk-123") 0

/-- An aggregate with the one secret "api_key" and no lease. -/
def vd1 : VaultData :=
  { secrets := [("api_key", entry1)], lease_manager := ⟨[]⟩, created_at := 0,
    version := "0.1.0" }

/-- A world with the one secret "api_key", persisted. -/
def w1 : World := { vault := { data := vd1, key := key0 }, file := vd1 }

/-- An aggregate with the secret "api_key" and a live lease on it. -/
def vd2 : VaultData :=
  { secrets := [("api_key", entry1)], lease_manager := ⟨[("api_key", ⟨1000, 0⟩)]⟩,
    created_at := 0, version := "0.1.0" }

/-- A world whose one secret carries a lease, persisted. -/
def w2 : World := { vault := { data := vd2, key := key0 }, file := vd2 }

/-- An aggregate with an orphaned lease on "x" and no secret entries — a state
the spec requires to be tolerated. -/
def vd3 : VaultData :=
  { secrets := [], lease_manager := ⟨[("x", ⟨-1, -2⟩)]⟩, created_at := 0,
    version := "0.1.0" }

/-- A world holding only the orphaned lease, persisted. -/
def w3 : World := { vault := { data := vd3, key := key0 }, file := vd3 }

/-- A 128-character name of 256 UTF-8 bytes (each character encodes to two
bytes). -/
def name128 : String := String.mk (List.replicate 128 'é')

/-! ## Lemmas: the UTF-8 codec inverts the encoder -/

/-- Decoding picks up exactly the scalar value the encoder emitted, leaving
the remaining bytes untouched. -/
theorem utf8DecodeOne_encodeCp (n : Nat)
    (hv : n < 0xD800 ∨ (0xDFFF < n ∧ n < 0x110000)) :
    ∃ b tail, utf8EncodeCp n = b :: tail ∧
      ∀ rest, utf8DecodeOne b (tail ++ rest) = some (n, rest) := by
  by_cases h1 : n < 0x80
  · exact ⟨n, [], by simp [utf8EncodeCp, h1],
      fun rest => by simp [utf8DecodeOne, h1]⟩
  by_cases h2 : n < 0x800
  · refine ⟨0xC0 + n / 64, [0x80 + n % 64], by simp [utf8EncodeCp, h1, h2],
      fun rest => ?_⟩
    have hx : ¬ (0xC0 + n / 64 < 0x80) := by omega
    have hy : ¬ (0xC0 + n / 64 < 0xC2) := by omega
    have hz : 0xC0 + n / 64 < 0xE0 := by omega
    have hc : utf8Cont (0x80 + n % 64) := ⟨by omega, by omega⟩
    simp only [List.singleton_append, utf8DecodeOne, if_neg hx, if_neg hy, if_pos hz,
      if_pos hc]
    have hval : (0xC0 + n / 64 - 0xC0) * 64 + (0x80 + n % 64 - 0x80) = n := by omega
    rw [hval]
  by_cases h3 : n < 0x10000
  · refine ⟨0xE0 + n / 4096, [0x80 + (n / 64) % 64, 0x80 + n % 64],
      by simp [utf8EncodeCp, h1, h2, h3], fun rest => ?_⟩
    have hx : ¬ (0xE0 + n / 4096 < 0x80) := by omega
    have hy : ¬ (0xE0 + n / 4096 < 0xC2) := by omega
    have hz : ¬ (0xE0 + n / 4096 < 0xE0) := by omega
    have hw : 0xE0 + n / 4096 < 0xF0 := by omega
    have hc : utf8Cont (0x80 + (n / 64) % 64) ∧ utf8Cont (0x80 + n % 64) ∧
        0x800 ≤ (0xE0 + n / 4096 - 0xE0) * 4096 + (0x80 + (n / 64) % 64 - 0x80) * 64 +
          (0x80 + n % 64 - 0x80) ∧
        ((0xE0 + n / 4096 - 0xE0) * 4096 + (0x80 + (n / 64) % 64 - 0x80) * 64 +
          (0x80 + n % 64 - 0x80) < 0xD800 ∨
         0xE000 ≤ (0xE0 + n / 4096 - 0xE0) * 4096 + (0x80 + (n / 64) % 64 - 0x80) * 64 +
          (0x80 + n % 64 - 0x80)) := by
      refine ⟨⟨by omega, by omega⟩, ⟨by omega, by omega⟩, by omega, ?_⟩
      omega
    simp only [List.cons_append, List.singleton_append, utf8DecodeOne, if_neg hx,
      if_neg hy, if_neg hz, if_pos hw, if_pos hc]
    have hval : (0xE0 + n / 4096 - 0xE0) * 4096 + (0x80 + (n / 64) % 64 - 0x80) * 64 +
        (0x80 + n % 64 - 0x80) = n := by omega
    rw [hval, List.nil_append]
  · refine ⟨0xF0 + n / 262144,
      [0x80 + (n / 4096) % 64, 0x80 + (n / 64) % 64, 0x80 + n % 64],
      by simp [utf8EncodeCp, h1, h2, h3], fun rest => ?_⟩
    have hn : n < 0x110000 := by omega
    have hx : ¬ (0xF0 + n / 262144 < 0x80) := by omega
    have hy : ¬ (0xF0 + n / 262144 < 0xC2) := by omega
    have hz : ¬ (0xF0 + n / 262144 < 0xE0) := by omega
    have hw : ¬ (0xF0 + n / 262144 < 0xF0) := by omega
    have hv4 : 0xF0 + n / 262144 < 0xF5 := by omega
    have hc : utf8Cont (0x80 + (n / 4096) % 64) ∧ utf8Cont (0x80 + (n / 64) % 64) ∧
        utf8Cont (0x80 + n % 64) ∧
        0x10000 ≤ (0xF0 + n / 262144 - 0xF0) * 262144 +
          (0x80 + (n / 4096) % 64 - 0x80) * 4096 + (0x80 + (n / 64) % 64 - 0x80) * 64 +
          (0x80 + n % 64 - 0x80) ∧
        (0xF0 + n / 262144 - 0xF0) * 262144 + (0x80 + (n / 4096) % 64 - 0x80) * 4096 +
          (0x80 + (n / 64) % 64 - 0x80) * 64 + (0x80 + n % 64 - 0x80) < 0x110000 := by
      refine ⟨⟨by omega, by omega⟩, ⟨by omega, by omega⟩, ⟨by omega, by omega⟩,
        by omega, by omega⟩
    simp only [List.cons_append, List.singleton_append, utf8DecodeOne, if_neg hx,
      if_neg hy, if_neg hz, if_neg hw, if_pos hv4, if_pos hc]
    have hval : (0xF0 + n / 262144 - 0xF0) * 262144 + (0x80 + (n / 4096) % 64 - 0x80) * 4096 +
        (0x80 + (n / 64) % 64 - 0x80) * 64 + (0x80 + n % 64 - 0x80) = n := by omega
    rw [hval, List.nil_append]

/-- With enough fuel, decoding the concatenated encodings of valid scalar
values gives those values back. -/
theorem utf8DecodeFuel_encode (cps : List Nat)
    (hv : ∀ n ∈ cps, n < 0xD800 ∨ (0xDFFF < n ∧ n < 0x110000)) :
    ∀ fuel, (cps.flatMap utf8EncodeCp).length ≤ fuel →
      utf8DecodeFuel fuel (cps.flatMap utf8EncodeCp) = some cps := by
  induction cps with
  | nil =>
    intro fuel _
    cases fuel <;> rfl
  | cons n cps ih =>
    intro fuel hf
    obtain ⟨b, tail, henc, hdec⟩ :=
      utf8DecodeOne_encodeCp n (hv n (by simp))
    rw [List.flatMap_cons, henc, List.cons_append] at hf ⊢
    cases fuel with
    | zero => simp at hf
    | succ f =>
      have hlen : (cps.flatMap utf8EncodeCp).length ≤ f := by
        rw [List.length_cons, List.length_append] at hf
        omega
      rw [utf8DecodeFuel, hdec]
      simp [ih (fun m hm => hv m (by simp [hm])) f hlen]

/-- `String::from_utf8` inverts `str::as_bytes`. -/
theorem bytesToStr_strToBytes (s : String) : bytesToStr (strToBytes s) = some s := by
  obtain ⟨cs⟩ := s
  have hv : ∀ n ∈ cs.map Char.toNat, n < 0xD800 ∨ (0xDFFF < n ∧ n < 0x110000) := by
    intro n hn
    rcases List.mem_map.1 hn with ⟨c, _, rfl⟩
    rcases c.valid with h | ⟨h1, h2⟩
    · exact Or.inl h
    · exact Or.inr ⟨h1, h2⟩
  unfold bytesToStr strToBytes utf8DecodeList
  rw [utf8DecodeFuel_encode _ hv _ (Nat.le_refl _)]
  simp only [Option.map_some', List.map_map, Option.some.injEq]
  congr 1
  show List.map (fun x => Char.ofNat x.toNat) cs = cs
  exact List.map_id'' Char.ofNat_toNat cs

/-! ## Lemmas: the idealized AEAD round-trips -/

/-- Masking keeps the length. -/
theorem gcmMask_length (key nonce : Bytes) (i : Nat) (l : Bytes) :
    (gcmMask key nonce i l).length = l.length := by
  induction l generalizing i with
  | nil => rfl
  | cons b rest ih => simp [gcmMask, ih]

/-- Masking twice with the same keystream is the identity. -/
theorem gcmMask_gcmMask (key nonce : Bytes) (i : Nat) (l : Bytes) :
    gcmMask key nonce i (gcmMask key nonce i l) = l := by
  induction l generalizing i with
  | nil => rfl
  | cons b rest ih =>
    simp only [gcmMask, ih, List.cons.injEq, and_true]
    rw [Nat.xor_assoc, Nat.xor_self, Nat.xor_zero]

/-- Decrypting an authentic ciphertext recovers the plaintext bytes. -/
theorem aes256gcmDecrypt_encrypt (key nonce pt : Bytes) :
    aes256gcmDecrypt key nonce (aes256gcmEncrypt key nonce pt) = some pt := by
  unfold aes256gcmEncrypt aes256gcmDecrypt
  have hlen : (gcmMask key nonce 0 pt ++ gcmTag key nonce (gcmMask key nonce 0 pt)).length =
      (gcmMask key nonce 0 pt).length + 16 := by
    rw [List.length_append]
    unfold gcmTag
    rw [List.length_replicate]
  rw [hlen]
  rw [if_neg (by omega)]
  have hsub : (gcmMask key nonce 0 pt).length + 16 - 16 = (gcmMask key nonce 0 pt).length := by
    omega
  rw [hsub, List.take_left' rfl, List.drop_left' rfl, if_pos rfl, gcmMask_gcmMask]

/-! ## C2: encrypt/decrypt round-trip -/

/-- C2.  For every plaintext string p and every 256-bit key k, decrypting the
result of encrypting p under k with the same key returns p (the fresh 12-byte
nonce drawn inside `encrypt` is quantified explicitly). -/
theorem decrypt_encrypt_roundtrip (p : String) (key nonce : Bytes)
    (hk : key.length = 32) (hkb : ∀ b ∈ key, b < 256) (hn : nonce.length = 12) :
    CryptoEngine.decrypt key (CryptoEngine.encrypt key nonce p) = DecryptResult.ok p := by
  unfold CryptoEngine.encrypt CryptoEngine.decrypt
  rw [if_neg (by simp [hn])]
  simp only [aes256gcmDecrypt_encrypt, bytesToStr_strToBytes]

/-- C2 witness: the round-trip at the all-zero key and nonce on "hi". -/
theorem decrypt_encrypt_roundtrip_witness :
    key0.length = 32 ∧ nonce0.length = 12 ∧
      CryptoEngine.decrypt key0 (CryptoEngine.encrypt key0 nonce0 "hi") =
        DecryptResult.ok "hi" :=
  ⟨by decide, by decide,
    decrypt_encrypt_roundtrip "hi" key0 nonce0 (by decide) (by decide) (by decide)⟩

/-! ## C1: failed authentication, and the wrong-length-nonce panic -/

set_option maxRecDepth 4000 in
/-- C1.  At the concrete failing input — a nonce that is not 12 bytes long —
`decrypt` panics in `Nonce::from_slice` instead of returning the decryption
error; with a correct 12-byte nonce, a tampered ciphertext (first byte
bit-flipped) and a truncated ciphertext both fail with the decryption error
and yield no plaintext. -/
theorem crypto_decrypt_tamper_and_panic :
    CryptoEngine.decrypt key0 { ciphertext := [1, 2, 3], nonce := [0, 0, 0, 0] } =
      DecryptResult.panicked ∧
    CryptoEngine.decrypt key0
      { ciphertext :=
          (CryptoEngine.encrypt key0 nonce0 "hi").ciphertext.modifyHead (fun b => b ^^^ 1),
        nonce := nonce0 } = DecryptResult.decryptionError ∧
    CryptoEngine.decrypt key0 { ciphertext := [1, 2, 3], nonce := nonce0 } =
      DecryptResult.decryptionError := by
  refine ⟨by decide, by decide, by decide⟩

/-! ## Lemmas: association lists and sorting -/

/-- Looking up the freshly inserted key finds the fresh value. -/
theorem alistGet_insert_self {α : Type} (l : List (String × α)) (k : String) (v : α) :
    alistGet (alistInsert l k v) k = some v := by
  simp [alistInsert, alistGet, List.find?]

/-- Looking up a removed key finds nothing. -/
theorem alistGet_remove_self {α : Type} (l : List (String × α)) (k : String) :
    alistGet (alistRemove l k) k = none := by
  induction l with
  | nil => rfl
  | cons p rest ih =>
    by_cases hp : p.1 == k
    · simpa [alistRemove, List.filter_cons, hp] using ih
    · simp only [alistRemove, List.filter_cons, hp, Bool.not_false, if_true] at ih ⊢
      simp only [alistGet, List.find?, hp] at ih ⊢
      exact ih

/-- Membership in an ordered insertion. -/
theorem mem_insertByName (x p : String × Option Int) (l : List (String × Option Int)) :
    x ∈ insertByName p l ↔ x = p ∨ x ∈ l := by
  induction l with
  | nil => simp [insertByName]
  | cons q rest ih =>
    by_cases h : p.1 ≤ q.1
    · simp [insertByName, h]
    · simp [insertByName, h, ih]
      tauto

/-- Sorting keeps exactly the members. -/
theorem mem_sortByName (x : String × Option Int) (l : List (String × Option Int)) :
    x ∈ sortByName l ↔ x ∈ l := by
  induction l with
  | nil => simp [sortByName]
  | cons p rest ih =>
    show x ∈ insertByName p (sortByName rest) ↔ _
    rw [mem_insertByName, ih]
    simp

/-- Ordered insertion preserves sortedness by name. -/
theorem pairwise_insertByName (p : String × Option Int) (l : List (String × Option Int))
    (h : l.Pairwise (fun a b => a.1 ≤ b.1)) :
    (insertByName p l).Pairwise (fun a b => a.1 ≤ b.1) := by
  induction l with
  | nil => simp [insertByName]
  | cons q rest ih =>
    rcases List.pairwise_cons.1 h with ⟨hq, hrest⟩
    by_cases hle : p.1 ≤ q.1
    · rw [insertByName, if_pos hle]
      refine List.pairwise_cons.2 ⟨?_, h⟩
      intro x hx
      rcases List.mem_cons.1 hx with rfl | hx
      · exact hle
      · exact le_trans hle (hq x hx)
    · rw [insertByName, if_neg hle]
      refine List.pairwise_cons.2 ⟨?_, ih hrest⟩
      intro x hx
      rcases (mem_insertByName x p rest).1 hx with rfl | hx
      · exact le_of_not_le hle
      · exact hq x hx

/-- The sort produces a list sorted by name. -/
theorem pairwise_sortByName (l : List (String × Option Int)) :
    (sortByName l).Pairwise (fun a b => a.1 ≤ b.1) := by
  induction l with
  | nil => simp [sortByName]
  | cons p rest ih => exact pairwise_insertByName p (sortByName rest) ih

/-! ## Lemmas: validation -/

/-- A successful sanitize returns the name it was given. -/
theorem sanitize_ok_payload {name m : String}
    (h : sanitize_secret_name name = VResult.ok m) : m = name := by
  unfold sanitize_secret_name at h
  split_ifs at h <;> simp_all

/-- `sanitize_secret_name` succeeds exactly on the names the (amended) claim
allows. -/
theorem sanitize_ok_iff (name : String) :
    sanitize_secret_name name = VResult.ok name ↔ claimNameOk name := by
  unfold sanitize_secret_name claimNameOk
  split_ifs with h1 h2 h3 h4
  · refine iff_of_false (by simp) (by simp [h1])
  · refine iff_of_false (by simp) (by intro hc; omega)
  · refine iff_of_false (by simp) ?_
    rintro ⟨-, -, hall, -⟩
    rcases List.any_eq_true.1 h3 with ⟨c, hc, hbad⟩
    rw [hall c hc] at hbad
    cases hbad
  · refine iff_of_false (by simp) ?_
    rintro ⟨-, -, -, hres⟩
    exact hres (by simpa [List.elem_iff] using h4)
  · refine iff_of_true rfl ⟨h1, by omega, ?_, ?_⟩
    · intro c hc
      by_contra hbad
      exact h3 (List.any_eq_true.2 ⟨c, hc, by simpa using hbad⟩)
    · intro hmem
      exact h4 (by simpa [List.elem_iff] using hmem)

/-- `validate_secret_value` succeeds exactly on the values the (amended) claim
allows. -/
theorem validate_ok_iff (value : String) :
    validate_secret_value value = VResult.ok () ↔ claimValueOk value := by
  unfold validate_secret_value claimValueOk
  split_ifs with h1 h2 h3
  · refine iff_of_false (by simp) (by simp [h1])
  · refine iff_of_false (by simp) (by intro hc; omega)
  · refine iff_of_false (by simp) ?_
    rintro ⟨-, -, hall⟩
    rcases List.any_eq_true.1 h3 with ⟨c, hc, hbad⟩
    exact hall c hc (by simpa using hbad)
  · refine iff_of_true rfl ⟨h1, by omega, ?_⟩
    intro c hc hzero
    exact h3 (List.any_eq_true.2 ⟨c, hc, by simp [hzero]⟩)

/-! ## C3: get_secret and absence -/

/-- C3 counterexample.  The claim quantifies over every name; at the invalid
name "a/b" — which has no entry in the (empty) vault, so the claim says
`Ok(None)` — `get_secret` returns a validation error instead. -/
theorem get_secret_invalid_name_counterexample :
    alistGet w0.vault.data.secrets "a/b" = none ∧
      (Vault.get_secret w0 0 "a/b").1 =
        OpResult.error "Secret name contains invalid characters" := by
  refine ⟨by decide, by decide⟩

/-- C3 (amended).  For every vault state and every name the validator accepts,
`get_secret` returns `Ok(None)` when the name has no entry or its lease is
expired at the moment of the query, and otherwise the outcome of decrypting
the stored entry — `Some` plaintext exactly when decryption succeeds. -/
theorem get_secret_absent_semantics (w : World) (now : Int) (name : String)
    (h : sanitize_secret_name name = VResult.ok name) :
    (Vault.get_secret w now name).1 = getSecretSpec w now name := by
  unfold Vault.get_secret getSecretSpec leaseExpiredAt
  rw [h]
  dsimp only
  cases hsec : alistGet w.vault.data.secrets name with
  | none => rfl
  | some entry =>
    cases hl : w.vault.data.lease_manager.get_lease name with
    | none => rfl
    | some lease =>
      by_cases he : lease.is_expired now = true
      · simp [he]
      · simp [he]

/-- C3 witness: the amended semantics at a world holding one decryptable
secret. -/
theorem get_secret_absent_semantics_witness :
    sanitize_secret_name "api_key" = VResult.ok "api_key" ∧
      (Vault.get_secret w1 0 "api_key").1 = getSecretSpec w1 0 "api_key" :=
  ⟨by decide, get_secret_absent_semantics w1 0 "api_key" (by decide)⟩

/-! ## C9: get_secret mutates nothing -/

/-- C9.  `get_secret` never mutates the vault: the secrets map (so every
entry's `access_count` and `last_accessed`), the lease map and the persisted
file all keep their prior values — reads are side-effect free. -/
theorem get_secret_no_mutation (w : World) (now : Int) (name : String) :
    (Vault.get_secret w now name).2.vault.data.secrets = w.vault.data.secrets ∧
    (Vault.get_secret w now name).2.vault.data.lease_manager = w.vault.data.lease_manager ∧
    (Vault.get_secret w now name).2.file = w.file :=
  ⟨rfl, rfl, rfl⟩

/-! ## C5: add_secret validation -/

set_option maxRecDepth 10000 in
/-- C5 counterexample.  The claim bounds the name by 255 CHARACTERS; this
128-character name satisfies every rule the claim lists, yet `add_secret`
rejects it — the source bounds `name.len()`, which is UTF-8 bytes (256 here) —
so the claim's "exactly when" fails at this input. -/
theorem add_secret_bytes_vs_chars_counterexample :
    name128.data.length = 128 ∧ name128 ≠ "" ∧
      (∀ c ∈ name128.data, badNameChar c = false) ∧
      rustUppercase name128 ∉ reservedNames ∧
      claimValueOk "v" ∧
      (Vault.add_secret w0 0 nonce0 name128 "v").1 =
        VResult.error "Secret name too long (max 255 characters)" ∧
      (Vault.add_secret w0 0 nonce0 name128 "v").2 = w0 := by
  refine ⟨by decide, by decide, by decide, by decide, ?_, by decide, by decide⟩
  refine ⟨by decide, by decide, by decide⟩

/-- C5 (amended).  `add_secret` fails — leaving the in-memory vault and the
persisted file unchanged — exactly when the name or value violates the rules,
with the two length bounds counted in UTF-8 bytes (255 and 10,000) as
`str::len` counts them. -/
theorem add_secret_validation_exact (w : World) (now : Int) (nonce : Bytes)
    (name value : String) :
    ((Vault.add_secret w now nonce name value).1 = VResult.ok () ↔
      (claimNameOk name ∧ claimValueOk value)) ∧
    ((Vault.add_secret w now nonce name value).1 ≠ VResult.ok () →
      (Vault.add_secret w now nonce name value).2 = w) := by
  unfold Vault.add_secret
  cases hs : sanitize_secret_name name with
  | error e =>
    refine ⟨iff_of_false (by simp) ?_, fun _ => rfl⟩
    rintro ⟨hn, -⟩
    have hok := (sanitize_ok_iff name).2 hn
    rw [hs] at hok
    exact VResult.noConfusion hok
  | ok nm =>
    have hnm : nm = name := sanitize_ok_payload hs
    subst nm
    cases hv : validate_secret_value value with
    | error e =>
      refine ⟨iff_of_false (by simp) ?_, fun _ => rfl⟩
      rintro ⟨-, hvv⟩
      have hok := (validate_ok_iff value).2 hvv
      rw [hv] at hok
      exact VResult.noConfusion hok
    | ok u =>
      refine ⟨iff_of_true rfl ⟨(sanitize_ok_iff name).1 hs, (validate_ok_iff value).1 hv⟩,
        fun hne => absurd rfl hne⟩

/-- C5 witness: a valid name and value are accepted. -/
theorem add_secret_validation_witness :
    (Vault.add_secret w0 0 nonce0 "api_key" "sk-123").1 = VResult.ok () :=
  (add_secret_validation_exact w0 0 nonce0 "api_key" "sk-123").1.mpr (by decide)

/-! ## C6: remove_secret -/

/-- C6 counterexample.  In a world whose lease manager holds an orphaned lease
on "x" and no secret entry, `remove_secret "x"` deletes that lease from the
in-memory state — something IS removed — yet returns false, and the persisted
file is not rewritten; the claim's "returns true exactly when something was
removed" fails at this input. -/
theorem remove_secret_orphan_lease_counterexample :
    w3.vault.data.lease_manager.get_lease "x" = some ⟨-1, -2⟩ ∧
      (Vault.remove_secret w3 "x").1 = VResult.ok false ∧
      (Vault.remove_secret w3 "x").2.vault.data.lease_manager.get_lease "x" = none ∧
      (Vault.remove_secret w3 "x").2.file = w3.file := by
  refine ⟨by decide, by decide, by decide, by decide⟩

/-- C6 (amended).  For every vault state and valid name, `remove_secret`
deletes the secret entry and any lease for the name from memory, returns true
exactly when a secret ENTRY existed (an orphaned lease removed alone yields
false), rewrites the persisted file only when the entry existed, and leaves
the file byte-identical otherwise. -/
theorem remove_secret_entry_semantics (w : World) (name : String)
    (h : sanitize_secret_name name = VResult.ok name) :
    (Vault.remove_secret w name).1 =
      VResult.ok (alistGet w.vault.data.secrets name).isSome ∧
    alistGet (Vault.remove_secret w name).2.vault.data.secrets name = none ∧
    (Vault.remove_secret w name).2.vault.data.lease_manager.get_lease name = none ∧
    ((alistGet w.vault.data.secrets name).isSome = true →
      (Vault.remove_secret w name).2.file = (Vault.remove_secret w name).2.vault.data) ∧
    ((alistGet w.vault.data.secrets name).isSome = false →
      (Vault.remove_secret w name).2.file = w.file) := by
  unfold Vault.remove_secret
  rw [h]
  dsimp only
  cases hr : (alistGet w.vault.data.secrets name).isSome with
  | false =>
    rw [if_neg (by simp)]
    exact ⟨rfl, alistGet_remove_self _ _, alistGet_remove_self _ _,
      fun hc => absurd hc (by simp), fun _ => rfl⟩
  | true =>
    rw [if_pos rfl]
    exact ⟨rfl, alistGet_remove_self _ _, alistGet_remove_self _ _,
      fun _ => rfl, fun hc => absurd hc (by simp)⟩

/-- C6 witness: the amended semantics at a world holding the entry "api_key". -/
theorem remove_secret_entry_semantics_witness :
    (Vault.remove_secret w1 "api_key").1 =
      VResult.ok (alistGet w1.vault.data.secrets "api_key").isSome ∧
    alistGet (Vault.remove_secret w1 "api_key").2.vault.data.secrets "api_key" = none ∧
    (Vault.remove_secret w1 "api_key").2.vault.data.lease_manager.get_lease "api_key" =
      none ∧
    ((alistGet w1.vault.data.secrets "api_key").isSome = true →
      (Vault.remove_secret w1 "api_key").2.file =
        (Vault.remove_secret w1 "api_key").2.vault.data) ∧
    ((alistGet w1.vault.data.secrets "api_key").isSome = false →
      (Vault.remove_secret w1 "api_key").2.file = w1.file) :=
  remove_secret_entry_semantics w1 "api_key" (by decide)

/-! ## C7: list_secrets -/

/-- C7.  `list_secrets` returns, sorted by name, exactly the (name, optional
expiry) pairs of the secrets whose lease is absent or unexpired at query time;
entries with an expired lease are omitted and nothing errs. -/
theorem list_secrets_sorted_nonexpired (w : World) (now : Int) :
    (Vault.list_secrets w now).Pairwise (fun a b => a.1 ≤ b.1) ∧
    ∀ pr : String × Option Int,
      pr ∈ Vault.list_secrets w now ↔
        ∃ e : SecretEntry, (pr.1, e) ∈ w.vault.data.secrets ∧
          ((∃ l : Lease, w.vault.data.lease_manager.get_lease pr.1 = some l ∧
              l.is_expired now = false ∧ pr.2 = some l.expires_at) ∨
           (w.vault.data.lease_manager.get_lease pr.1 = none ∧ pr.2 = none)) := by
  refine ⟨pairwise_sortByName _, ?_⟩
  rintro ⟨n1, x2⟩
  unfold Vault.list_secrets
  rw [mem_sortByName, List.mem_filterMap]
  constructor
  · rintro ⟨⟨nm, e⟩, hmem, hf⟩
    dsimp only at hf
    cases hl : w.vault.data.lease_manager.get_lease nm with
    | none =>
      rw [hl] at hf
      dsimp only at hf
      obtain ⟨rfl, rfl⟩ := Prod.mk.inj (Option.some.inj hf)
      exact ⟨e, hmem, Or.inr ⟨hl, rfl⟩⟩
    | some lease =>
      rw [hl] at hf
      dsimp only at hf
      by_cases he : lease.is_expired now = true
      · rw [if_pos he] at hf
        exact Option.noConfusion hf
      · rw [if_neg he] at hf
        obtain ⟨rfl, rfl⟩ := Prod.mk.inj (Option.some.inj hf)
        exact ⟨e, hmem, Or.inl ⟨lease, hl, by simpa using he, rfl⟩⟩
  · rintro ⟨e, hmem, hcond⟩
    refine ⟨(n1, e), hmem, ?_⟩
    dsimp only
    rcases hcond with ⟨l, hl, hexp, hx2⟩ | ⟨hl, hx2⟩
    · dsimp only at hl hx2
      rw [hl]
      dsimp only
      rw [if_neg (by simp [hexp]), hx2]
    · dsimp only at hl hx2
      rw [hl]
      dsimp only
      rw [hx2]

/-! ## C10: add_secret overwrites wholesale, leases untouched -/

/-- C10.  A successful `add_secret` maps the name to a wholesale-fresh entry —
the new ciphertext, `access_count` 0, no `last_accessed` — and leaves the
lease manager exactly as it was, so an overwritten secret keeps any lease set
for its previous value. -/
theorem add_secret_overwrite_keeps_lease (w : World) (now : Int) (nonce : Bytes)
    (name value : String) (h1 : sanitize_secret_name name = VResult.ok name)
    (h2 : validate_secret_value value = VResult.ok ()) :
    alistGet (Vault.add_secret w now nonce name value).2.vault.data.secrets name =
      some { encrypted_value := CryptoEngine.encrypt w.vault.key nonce value,
             created_at := now, updated_at := now, access_count := 0,
             last_accessed := none } ∧
    (Vault.add_secret w now nonce name value).2.vault.data.lease_manager =
      w.vault.data.lease_manager := by
  unfold Vault.add_secret
  rw [h1, h2]
  exact ⟨alistGet_insert_self _ _ _, rfl⟩

/-- C10 witness: overwriting "api_key" in a world where it carries a lease. -/
theorem add_secret_overwrite_keeps_lease_witness :
    alistGet (Vault.add_secret w2 5 nonce0 "api_key" "new").2.vault.data.secrets
        "api_key" =
      some { encrypted_value := CryptoEngine.encrypt w2.vault.key nonce0 "new",
             created_at := 5, updated_at := 5, access_count := 0,
             last_accessed := none } ∧
    (Vault.add_secret w2 5 nonce0 "api_key" "new").2.vault.data.lease_manager =
      w2.vault.data.lease_manager :=
  add_secret_overwrite_keeps_lease w2 5 nonce0 "api_key" "new" (by decide) (by decide)

/-! ## C4: parse_duration -/

set_option maxRecDepth 4000 in
/-- C4.  At the failing input "10seconds" (and "10sec") the parser rejects a
unit the claim and the source's own match arms list: the split at the LAST
alphabetic character leaves "10second" as the number part, which fails the
integer parse.  Single-letter units and the claimed rejections behave as the
claim says. -/
theorem parse_duration_multiletter_unit_rejected :
    parse_duration "10seconds" = OpResult.error "Invalid number in duration: 10second" ∧
    parse_duration "10sec" = OpResult.error "Invalid number in duration: 10se" ∧
    parse_duration "10s" = OpResult.ok 10 ∧
    parse_duration "1d" = OpResult.ok 86400 ∧
    parse_duration "" = OpResult.error "Duration cannot be empty" ∧
    parse_duration "10" = OpResult.error "Duration must include a unit (s, m, h, d)" ∧
    parse_duration "10x" = OpResult.error "Invalid duration unit: x. Use s, m, h, d, or w" ∧
    parse_duration "-5m" = OpResult.error "Duration must be positive" := by
  refine ⟨by decide, by decide, by decide, by decide, by decide, by decide, by decide,
    by decide⟩

/-! ## C8: key derivation is deterministic -/

/-- C8.  `derive_key_from_password` is a pure function of (password, salt): it
consumes none of the ambient randomness, so any two calls — whatever the state
of the operating-system RNG — return identical key bytes, and the session key
is reproducible from the password and the stored salt alone. -/
theorem derive_key_deterministic (password : String) (salt : Bytes) (r1 r2 : RngState) :
    (derive_key_from_password password salt r1).1 =
      (derive_key_from_password password salt r2).1 := rfl

end SentinelVault
